import Mathlib

/-!
# Verification of the knowledge/retrieval pipeline of the chatbot repository

Shallow embedding of the core text-processing, ingestion, retrieval and
response-composition code (`knowledge_base.py`, `training_pipeline.py`,
`chatbot_engine.py`, `core/chatbot_engine.py`, `core/llm_integration.py`).

Modelling conventions:
* Python strings are modelled as `List Char` (named `Str` below); all string
  operations used by the code (`str.split()`, `str.strip()`, `str.lower()`,
  substring search, the concrete regex splits) are defined here on `List Char`
  and follow CPython semantics for ASCII text.
* Python floats are modelled as exact rationals `ℚ`.  The cosine-similarity
  value itself (which needs a square root) is kept as an abstract rational
  valued function parameter; the zero-norm guard of `_cosine_similarity`
  (`norm == 0`, equivalent to a zero sum of squares) is modelled explicitly.
* `time.time()` and `uuid.uuid4()` are nondeterministic collaborators and are
  passed in as explicit arguments (`now`, `freshId`).
* `nltk.sent_tokenize` is an external library; it is modelled as a function
  parameter `sentTok`, assumed (where needed) to preserve the word sequence
  of its input, which is the documented behaviour of the punkt tokenizer.
* The MD5 digest of `KnowledgeBase._get_content_hash` is modelled as an
  injective function of the content, i.e. hash equality is content equality.
-/

namespace Chatbot

/-- Python strings, modelled as lists of characters. -/
abbrev Str := List Char

/-- ASCII whitespace as recognised by Python's `str.split()`/`str.strip()`
and by the regex class `\s`: space, tab, newline, carriage return, form feed
and vertical tab. -/
def isSpace (c : Char) : Bool :=
  c = ' ' || c = '\t' || c = '\n' || c = '\r' || c = '\x0c' || c = '\x0b'

/-- Accumulator-based word scanner: `wordsAux l acc` splits `l` on runs of
whitespace, with `acc` holding the (reversed) partially read word. -/
def wordsAux : Str → Str → List Str
  | [], acc => if acc = [] then [] else [acc.reverse]
  | c :: cs, acc =>
      if isSpace c then
        if acc = [] then wordsAux cs [] else acc.reverse :: wordsAux cs []
      else wordsAux cs (c :: acc)

/-- Python `s.split()` (no separator): split on runs of whitespace and drop
empty pieces. -/
def pyWords (l : Str) : List Str := wordsAux l []

/-- Python `s.strip()`: remove leading and trailing whitespace. -/
def pyStrip (l : Str) : Str :=
  ((l.dropWhile isSpace).reverse.dropWhile isSpace).reverse

/-- Python `content.split('\x7bnewline newline\x7d')`: split on non-overlapping
occurrences of the two-character separator, keeping empty pieces. -/
def splitNN : Str → List Str
  | [] => [[]]
  | [c] => [[c]]
  | c :: d :: rest =>
      if c = '\n' ∧ d = '\n' then [] :: splitNN rest
      else
        match splitNN (d :: rest) with
        | [] => [[c]]
        | p :: ps => (c :: p) :: ps

/-- Inverse of `splitNN`: interleave the pieces with the separator. -/
def joinNN : List Str → Str
  | [] => []
  | [p] => p
  | p :: q :: qs => p ++ '\n' :: '\n' :: joinNN (q :: qs)

/-- Python `' '.join(pieces)`. -/
def joinSp : List Str → Str
  | [] => []
  | [p] => p
  | p :: q :: qs => p ++ ' ' :: joinSp (q :: qs)

/-! ## `TextChunker` (`training_pipeline.py`)

`chunk_text` applies three fallback stages: paragraph split, greedy sentence
grouping (for paragraphs longer than `chunk_size` words) and a sliding word
window (for pieces still longer than `chunk_size` words), then materialises
`TextChunk` records, dropping pieces that are empty after stripping. -/

/-- `TextChunk` dataclass of `training_pipeline.py`. -/
structure TextChunk where
  id : Str
  content : Str
  chunk_index : ℕ
  total_chunks : ℕ
  word_count : ℕ
  source_section : Str
  overlap_with_previous : ℕ
  chunk_type : Str
deriving DecidableEq

/-- `TextChunker._chunk_by_paragraphs`: blank-line separated pieces, stripped,
empty pieces dropped; the whole content if no piece survives. -/
def chunkByParagraphs (content : Str) : List Str :=
  if ((splitNN content).map pyStrip).filter (fun p => !p.isEmpty) = []
  then [content]
  else ((splitNN content).map pyStrip).filter (fun p => !p.isEmpty)

/-- Greedy sentence grouping of `TextChunker._chunk_by_sentences`:
accumulate sentences while the word count stays within `chunk_size`. -/
def groupSent (cs : ℕ) : List Str → List Str → ℕ → List (List Str)
  | [], cur, _ => if cur = [] then [] else [cur]
  | s :: rest, cur, cwc =>
      let sw := (pyWords s).length
      if cs < cwc + sw ∧ cur ≠ [] then cur :: groupSent cs rest [s] sw
      else groupSent cs rest (cur ++ [s]) (cwc + sw)

/-- `TextChunker._chunk_by_sentences`. -/
def chunkBySentences (cs : ℕ) (sentTok : Str → List Str) (content : Str) :
    List Str :=
  (groupSent cs (sentTok content) [] 0).map joinSp

/-- `TextChunker._chunk_by_words`: sliding word window of width `chunk_size`
and stride `chunk_size - overlap`.  When `overlap ≥ chunk_size` the Python
`range(0, len(words), chunk_size - overlap)` has a non-positive step and
yields no iterations at all (for a zero step it raises `ValueError`), so no
chunks are produced. -/
def chunkByWords (cs ov : ℕ) (content : Str) : List Str :=
  let ws := pyWords content
  if ov < cs then
    (List.range ((ws.length + (cs - ov) - 1) / (cs - ov))).map
      (fun i => joinSp ((ws.drop (i * (cs - ov))).take cs))
  else []

/-- `TextChunker._determine_chunk_type`. -/
def determineChunkType (sentTok : Str → List Str) (content : Str) : Str :=
  if '\n' ∈ content then "paragraph".data
  else if 3 < (sentTok content).length then "sentence_group".data
  else "sentence".data

/-- Number of common distinct words between the last `overlap` words of the
previous chunk and the first `overlap` words of the current chunk
(`len(set(prev_words) & set(curr_words))`).  Python `l[-overlap:]` is the
whole list when `overlap = 0`. -/
def overlapCount (ov : ℕ) (prev curr : Str) : ℕ :=
  let pw := if ov = 0 then pyWords prev
    else (pyWords prev).drop ((pyWords prev).length - ov)
  let cw := (pyWords curr).take ov
  ((pw.dedup).filter (fun w => w ∈ cw)).length

/-- The `TextChunk`-building loop at the end of `chunk_text`: strip each
piece, skip empty ones, compute overlap with the previously kept chunk. -/
def buildChunks (sentTok : Str → List Str) (sid : Str) (total ov : ℕ) :
    ℕ → Option Str → List Str → List TextChunk
  | _, _, [] => []
  | i, prev, c :: rest =>
      let cc := pyStrip c
      if cc = [] then buildChunks sentTok sid total ov (i + 1) prev rest
      else
        let ocount : ℕ :=
          match prev with
          | none => 0
          | some pc => if 0 < i then overlapCount ov pc cc else 0
        { id := sid ++ "_chunk_".data ++ (toString i).data,
          content := cc,
          chunk_index := i,
          total_chunks := total,
          word_count := (pyWords cc).length,
          source_section := "section_".data ++ (toString i).data,
          overlap_with_previous := ocount,
          chunk_type := determineChunkType sentTok cc } ::
          buildChunks sentTok sid total ov (i + 1) (some cc) rest

/-- `TextChunker.chunk_text`: paragraph split, then sentence grouping for
long paragraphs, then word windows for long pieces, then chunk records. -/
def chunk_text (cs ov : ℕ) (sentTok : Str → List Str) (content : Str)
    (sid : Str) : List TextChunk :=
  if pyStrip content = [] then [] else
  let paragraph_chunks := chunkByParagraphs content
  let sentence_chunks := paragraph_chunks.flatMap (fun p =>
    if cs < (pyWords p).length then chunkBySentences cs sentTok p else [p])
  let final_chunks := sentence_chunks.flatMap (fun q =>
    if cs < (pyWords q).length then chunkByWords cs ov q else [q])
  buildChunks sentTok sid final_chunks.length ov 0 none final_chunks

/-! ## `ChatbotEngine._limit_response_sentences` (`chatbot_engine.py`)

The method splits the reply with `re.split(r'[.!?]+(?:\s+|$)', ...)`, further
splits on `re.split(r'(?:\n|\s+\d+\.)', ...)`, strips leading numbering with
`re.sub(r'^\d+\.\s*', '', ...)`, keeps fragments longer than 10 characters,
takes the first `max_sentences` of them and rejoins with `'. '`; if no
fragment survives it falls back to the (possibly 20-word-truncated) original
response.  The two regex splits are modelled by explicit scanners with the
exact leftmost-match semantics of the patterns. -/

/-- Sentence-terminating punctuation `[.!?]`. -/
def isPunct (c : Char) : Bool := c = '.' || c = '!' || c = '?'

/-- Leftmost-anchored match of `[.!?]+(?:\s+|$)`: a maximal nonempty
punctuation run followed by a maximal nonempty whitespace run or the end of
the string.  Returns the remainder after the match. -/
def matchSentEnd (l : Str) : Option Str :=
  let p := l.takeWhile isPunct
  if p.isEmpty then none
  else
    match l.dropWhile isPunct with
    | [] => some []
    | r =>
        if (r.takeWhile isSpace).isEmpty then none
        else some (r.dropWhile isSpace)

/-- Leftmost-anchored match of `(?:\n|\s+\d+\.)`: either a single newline, or
a nonempty whitespace run, a nonempty digit run and a literal dot. -/
def matchNumBreak (l : Str) : Option Str :=
  match l with
  | [] => none
  | c :: rest =>
      if c = '\n' then some rest
      else
        if ((c :: rest).takeWhile isSpace).isEmpty then none
        else
          let r := (c :: rest).dropWhile isSpace
          if (r.takeWhile Char.isDigit).isEmpty then none
          else
            match r.dropWhile Char.isDigit with
            | '.' :: rest2 => some rest2
            | _ => none

/-- `re.split` driver: scan left to right, splitting at each leftmost match
of `matcher` (which consumes at least one character); `fuel` bounds the scan
and is always supplied as  `length + 1`, which is sufficient. -/
def splitScan (matcher : Str → Option Str) : ℕ → Str → Str → List Str
  | 0, l, piece => [piece.reverse ++ l]
  | _ + 1, [], piece => [piece.reverse]
  | fuel + 1, c :: rest, piece =>
      match matcher (c :: rest) with
      | some rest2 => piece.reverse :: splitScan matcher fuel rest2 []
      | none => splitScan matcher fuel rest (c :: piece)

/-- `re.split(r'[.!?]+(?:\s+|$)', l)`. -/
def reSplitSentEnd (l : Str) : List Str := splitScan matchSentEnd (l.length + 1) l []

/-- `re.split(r'(?:\n|\s+\d+\.)', l)`. -/
def reSplitNumBreak (l : Str) : List Str := splitScan matchNumBreak (l.length + 1) l []

/-- `re.sub(r'^\d+\.\s*', '', s)`: drop a leading digit run, a dot and any
following whitespace. -/
def stripLeadingNumber (s : Str) : Str :=
  if (s.takeWhile Char.isDigit).isEmpty then s
  else
    match s.dropWhile Char.isDigit with
    | '.' :: rest => rest.dropWhile isSpace
    | _ => s

/-- The `all_parts` list of `_limit_response_sentences`. -/
def allParts (response : Str) : List Str :=
  (reSplitSentEnd (pyStrip response)).flatMap (fun s =>
    if pyStrip s = [] then []
    else ((reSplitNumBreak (pyStrip s)).map pyStrip).filter (fun p => !p.isEmpty))

/-- The `clean_sentences` list of `_limit_response_sentences`: stripped,
de-numbered fragments of more than 10 characters. -/
def cleanSentences (response : Str) : List Str :=
  ((allParts response).map (fun s => stripLeadingNumber (pyStrip s))).filter
    (fun s => !s.isEmpty && 10 < s.length)

/-- `'. '.join(pieces)`. -/
def joinPeriodSp : List Str → Str
  | [] => []
  | [p] => p
  | p :: q :: qs => p ++ '.' :: ' ' :: joinPeriodSp (q :: qs)

/-- Python `result.endswith(('.', '!', '?'))`. -/
def endsWithPunct (s : Str) : Bool :=
  match s.getLast? with
  | some c => isPunct c
  | none => false

/-- `ChatbotEngine._limit_response_sentences`. -/
def limit_response_sentences (response : Str) (max_sentences : ℕ) : Str :=
  if pyStrip response = [] then response
  else
    let limited := (cleanSentences response).take max_sentences
    if limited ≠ [] then
      let result := joinPeriodSp limited
      if endsWithPunct result then result else result ++ ['.']
    else
      let ws := pyWords response
      if 20 < ws.length then joinSp (ws.take 20) ++ "...".data
      else response

/-! ## `KnowledgeBase` (`knowledge_base.py`)

`add_knowledge` deduplicates on an MD5 hash of the *raw* incoming content,
compared against the hash of each stored entry's content; on a duplicate it
mutates the entry in place (`updated_at`, `metadata`), saves (ignoring the
result) and returns the existing id.  Otherwise it appends a new entry whose
content is `content.strip()`; if the durable save fails it removes the new
entry again and raises.  `time.time()` and `uuid.uuid4()` are passed in as
`now` and `freshId`; the outcome of `_save_company_knowledge` is the `saveOk`
flag.  MD5 is modelled as an injective digest, so hash comparison is content
comparison. -/

/-- `KnowledgeEntry` dataclass of `knowledge_base.py`. -/
structure KnowledgeEntry where
  id : Str
  company_id : Str
  content : Str
  source : Str
  category : Str
  metadata : List (Str × Str)
  created_at : ℚ
  updated_at : ℚ
deriving DecidableEq

/-- `KnowledgeBase._get_content_hash`: MD5 digest, modelled as an injective
function of the content bytes. -/
def content_hash (content : Str) : Str := content

instance : DecidableEq (Except Str Str) := fun a b =>
  match a, b with
  | .ok x, .ok y =>
      if h : x = y then .isTrue (by rw [h]) else .isFalse (by simp [h])
  | .error x, .error y =>
      if h : x = y then .isTrue (by rw [h]) else .isFalse (by simp [h])
  | .ok _, .error _ => .isFalse (by simp)
  | .error _, .ok _ => .isFalse (by simp)

/-- The duplicate-detection loop of `add_knowledge`: find the first entry
whose content hash equals `h`, update its `updated_at`/`metadata` in place,
and report the updated list together with that entry's id. -/
def findDup (now : ℚ) (metadata : List (Str × Str)) (h : Str) :
    List KnowledgeEntry → Option (List KnowledgeEntry × Str)
  | [] => none
  | e :: rest =>
      if content_hash e.content = h then
        some ({ e with updated_at := now, metadata := metadata } :: rest, e.id)
      else
        match findDup now metadata h rest with
        | none => none
        | some (l, i) => some (e :: l, i)

/-- `KnowledgeBase.add_knowledge` for one company: returns the new in-memory
entry list together with the returned id (`Except.ok`) or the raised
exception (`Except.error`).  On the duplicate path the save outcome is
ignored; on the new-entry path a failed save removes the appended entry again
(`self.knowledge_cache[company_id].remove(entry)`) and raises. -/
def add_knowledge (now : ℚ) (freshId : Str) (saveOk : Bool)
    (entries : List KnowledgeEntry) (company_id content source category : Str)
    (metadata : List (Str × Str)) : List KnowledgeEntry × Except Str Str :=
  match findDup now metadata (content_hash content) entries with
  | some (entries2, eid) => (entries2, Except.ok eid)
  | none =>
      let entry : KnowledgeEntry :=
        { id := freshId, company_id := company_id, content := pyStrip content,
          source := source, category := category, metadata := metadata,
          created_at := now, updated_at := now }
      if saveOk then (entries ++ [entry], Except.ok freshId)
      else ((entries ++ [entry]).erase entry,
        Except.error "Failed to save knowledge entry".data)

/-! ## `ContentAnalyzer` (`training_pipeline.py`)

`_calculate_quality_score` starts at 1.0 and applies four penalties.  Python
float literals are modelled as exact rationals.  `analyze_content` feeds it
`word_count = len(content.split())` and
`sentence_count = len(nltk.sent_tokenize(content))`; the tokenizer is the
abstract parameter `sentTok`. -/

/-- Python `str.lower()` (ASCII). -/
def toLowerStr (s : Str) : Str := s.map Char.toLower

/-- `ContentAnalyzer._calculate_quality_score`. -/
def calculate_quality_score (content : Str) (word_count sentence_count : ℕ) :
    ℚ :=
  let s1 : ℚ := 1
  let s2 := if word_count < 10 then s1 - 3/10 else s1
  let s3 := if 0 < sentence_count ∧
      (50 : ℚ) < (word_count : ℚ) / (sentence_count : ℚ) then s2 - 2/10 else s2
  let s4 := if ¬ ('.' ∈ content ∨ '!' ∈ content ∨ '?' ∈ content)
    then s3 - 2/10 else s3
  let ws := pyWords (toLowerStr content)
  let s5 := if (ws.dedup.length : ℚ) < (ws.length : ℚ) * (1/2)
    then s4 - 1/10 else s4
  max 0 s5

/-- The quality score as computed by `ContentAnalyzer.analyze_content`:
`word_count`/`sentence_count` come from `content.split()` and the sentence
tokenizer. -/
def analyze_quality (sentTok : Str → List Str) (content : Str) : ℚ :=
  calculate_quality_score content (pyWords content).length
    (sentTok content).length

/-- The quality score exactly as the specification words it: 1.0 minus the
four penalties, floored at 0.0. -/
def qualityScoreSpec (content : Str) (word_count sentence_count : ℕ) : ℚ :=
  let p1 : ℚ := if word_count < 10 then 3/10 else 0
  let p2 : ℚ := if 0 < sentence_count ∧ 50 * sentence_count < word_count
    then 2/10 else 0
  let p3 : ℚ := if ¬ ('.' ∈ content ∨ '!' ∈ content ∨ '?' ∈ content)
    then 2/10 else 0
  let ws := pyWords (toLowerStr content)
  let p4 : ℚ := if (ws.dedup.length : ℚ) < (ws.length : ℚ) / 2 then 1/10 else 0
  max 0 (1 - p1 - p2 - p3 - p4)

/-! ## `LLMIntegration` retrieval (`core/llm_integration.py`)

`search_vectors` loads the company's `vectors.csv` rows, computes the cosine
similarity of the query embedding against each row's vector, keeps rows at or
above `similarity_threshold`, sorts by score descending (Python's stable sort
with `reverse=True`) and caps at `max_results`.  The cosine value needs a
square root, so it is kept as an abstract rational-valued function `sim`;
the zero-norm guard of `_cosine_similarity` (`norm1 == 0 or norm2 == 0`,
equivalently a zero sum of squares) is modelled explicitly by
`cosineGuard`. -/

/-- `VectorMatch` dataclass of `core/llm_integration.py`. -/
structure VectorMatch where
  knowledge_id : Str
  chunk_id : Str
  content : Str
  similarity_score : ℚ
  metadata : List (Str × Str)
deriving DecidableEq

/-- One parsed row of a company's `vectors.csv`. -/
structure VectorRow where
  knowledge_id : Str
  chunk_id : Str
  chunk_content : Str
  chunk_type : Str
  chunk_index : ℕ
  vec : List ℚ
deriving DecidableEq

/-- Sum of squares; the squared Euclidean norm, zero iff the norm is zero. -/
def sumSq (v : List ℚ) : ℚ := (v.map (fun x => x * x)).sum

/-- `LLMIntegration._cosine_similarity`: returns `0.0` whenever either vector
has zero norm, otherwise the cosine value (abstracted as `sim`). -/
def cosineGuard (sim : List ℚ → List ℚ → ℚ) (v1 v2 : List ℚ) : ℚ :=
  if sumSq v1 = 0 ∨ sumSq v2 = 0 then 0 else sim v1 v2

/-- The `VectorMatch` built for a row inside `search_vectors`. -/
def mkVectorMatch (r : VectorRow) (s : ℚ) : VectorMatch :=
  { knowledge_id := r.knowledge_id, chunk_id := r.chunk_id,
    content := r.chunk_content, similarity_score := s,
    metadata := [("chunk_type".data, r.chunk_type),
      ("chunk_index".data, (toString r.chunk_index).data)] }

/-- Comparator of `matches.sort(key=lambda x: x.similarity_score,
reverse=True)`: Python's sort is stable, i.e. a stable merge sort under the
"comes not later" relation below. -/
def scoreLe (a b : VectorMatch) : Bool :=
  decide (b.similarity_score ≤ a.similarity_score)

/-- Python `list.sort(key=score, reverse=True)`. -/
def sortByScoreDesc (l : List VectorMatch) : List VectorMatch :=
  l.mergeSort scoreLe

/-- `LLMIntegration.search_vectors` over already-parsed vector rows. -/
def search_vectors (sim : List ℚ → List ℚ → ℚ) (qv : List ℚ)
    (rows : List VectorRow) (thr : ℚ) (maxr : ℕ) : List VectorMatch :=
  let found := rows.filterMap (fun r =>
    let s := cosineGuard sim qv r.vec
    if thr ≤ s then some (mkVectorMatch r s) else none)
  (sortByScoreDesc found).take maxr

/-- The stop-word list of `LLMIntegration._extract_keywords`. -/
def stopWords : List Str :=
  (["the", "a", "an", "and", "or", "but", "in", "on", "at", "to", "for",
    "of", "with", "by", "is", "are", "was", "were", "be", "been", "being",
    "have", "has", "had", "do", "does", "did", "will", "would", "could",
    "should", "may", "might", "can", "what", "when", "where", "why", "how",
    "i", "you", "he", "she", "it", "we", "they", "me", "him", "her", "us",
    "them"]).map String.data

/-- Python regex `\w` (ASCII): alphanumeric or underscore. -/
def isWordChar (c : Char) : Bool := c.isAlphanum || c = '_'

/-- `LLMIntegration._extract_keywords`: lowercase, replace non-word
non-space characters by spaces (`re.sub(r'[^\w\s]', ' ', ...)`), split, keep
words longer than 2 characters that are not stop words. -/
def extract_keywords (message : Str) : List Str :=
  let clean := (toLowerStr message).map
    (fun c => if isWordChar c || isSpace c then c else ' ')
  (pyWords clean).filter (fun w => 2 < w.length && !stopWords.contains w)

/-- Python `needle in hay` (substring containment). -/
def isSubstrIn (needle : Str) : Str → Bool
  | [] => needle.isEmpty
  | c :: t => needle.isPrefixOf (c :: t) || isSubstrIn needle t

/-- Fuel-driven scanner for Python `hay.count(needle)` (non-overlapping
occurrences, left to right). -/
def countSubstrAux (needle : Str) : ℕ → Str → ℕ
  | 0, _ => 0
  | _ + 1, [] => 0
  | fuel + 1, c :: t =>
      if needle.isPrefixOf (c :: t)
      then 1 + countSubstrAux needle fuel ((c :: t).drop needle.length)
      else countSubstrAux needle fuel t

/-- Python `hay.count(needle)`; an empty needle counts `len + 1` slots. -/
def countSubstr (needle hay : Str) : ℕ :=
  if needle.isEmpty then hay.length + 1
  else countSubstrAux needle (hay.length + 1) hay

/-- The per-entry score loop of
`LLMIntegration._fallback_to_traditional_search`: `+2` per keyword
occurrence, `+10` for an exact query substring match. -/
def keywordScore (keywords : List Str) (queryLower contentLower : Str) : ℕ :=
  (keywords.map (fun k =>
    if isSubstrIn k contentLower then countSubstr k contentLower * 2 else 0)).sum
  + (if isSubstrIn queryLower contentLower then 10 else 0)

/-- `LLMIntegration._fallback_to_traditional_search`: keyword-score every
entry, normalise `min(score / 20.0, 1.0)`, keep scores at or above `0.1`,
sort descending, cap at `max_results`. -/
def fallback_search (query : Str) (entries : List KnowledgeEntry)
    (maxr : ℕ) : List VectorMatch :=
  if entries = [] then []
  else
    let keywords := extract_keywords query
    let found := entries.filterMap (fun e =>
      let score := keywordScore keywords (toLowerStr query) (toLowerStr e.content)
      let s : ℚ := min ((score : ℚ) / 20) 1
      if (1 : ℚ)/10 ≤ s then
        some { knowledge_id := e.id, chunk_id := e.id, content := e.content,
               similarity_score := s,
               metadata := [("source".data, e.source),
                 ("category".data, e.category),
                 ("fallback_search".data, "True".data)] }
      else none)
    (sortByScoreDesc found).take maxr

/-- `max(m.similarity_score for m in matches) if matches else 0.0`. -/
def maxScore : List VectorMatch → ℚ
  | [] => 0
  | m :: rest => rest.foldl (fun acc x => max acc x.similarity_score)
      m.similarity_score

/-- `LLMIntegration.search_vectors_with_fallback`. -/
def search_vectors_with_fallback (sim : List ℚ → List ℚ → ℚ) (qv : List ℚ)
    (rows : List VectorRow) (thr : ℚ) (maxr : ℕ) (query : Str)
    (entries : List KnowledgeEntry) : List VectorMatch :=
  let vm := search_vectors sim qv rows thr maxr
  if vm = [] ∨ maxScore vm < thr then fallback_search query entries maxr
  else vm

/-! ## `LLMIntegration.generate_response` (response composition)

`generate_response` returns a clarification result when there are no matches
or the top similarity is below `clarification_threshold`; otherwise it builds
a context from the top 3 matches and calls the LLM.  `_call_llm` catches its
own exceptions and falls back to a templated reply, so it is modelled as a
total function parameter `callLLM`; the outer `try/except` of
`generate_response` makes the whole method total (it never raises), which the
model reflects by being a total function. -/

/-- The result dictionary of `generate_response`. -/
structure ComposerResult where
  response : Str
  confidence : ℚ
  sources : List Str
  context_used : ℕ
  needs_clarification : Bool
deriving DecidableEq

/-- `LLMIntegration._prepare_context`: top-3 matches rendered and joined with
blank lines (numeric rendering of the score abstracted by `toString`). -/
def prepare_context (ms : List VectorMatch) : Str :=
  joinNN ((ms.take 3).enum.map (fun p =>
    "Source ".data ++ (toString (p.1 + 1)).data ++ " (Relevance: ".data ++
      (toString p.2.similarity_score).data ++ "):\n".data ++ p.2.content))

/-- `LLMIntegration._generate_clarification_response`. -/
def generate_clarification_response (_query : Str)
    (ms : List VectorMatch) : ComposerResult :=
  { response :=
      if ms = [] then
        ("Hi there! I\x27d love to help you with that, but I want to make " ++
          "sure I give you exactly what you\x27re looking for. Could you " ++
          "tell me a bit more about what you\x27re interested in? For " ++
          "example, are you curious about our services, pricing, how we " ++
          "work, or something else entirely?").data
      else
        ("Great question! I found some information that might be relevant, " ++
          "but I want to make sure I\x27m giving you the most helpful " ++
          "answer. Could you help me understand what specific aspect " ++
          "you\x27re most curious about? Are you thinking about our " ++
          "process, pricing, services, or something else?").data,
    confidence := maxScore ms,
    sources := (ms.take 2).map VectorMatch.chunk_id,
    context_used := ms.length,
    needs_clarification := true }

/-- `LLMIntegration.generate_response`. -/
def generate_response (thr : ℚ) (callLLM : Str → Str → Str) (query : Str)
    (ms : List VectorMatch) : ComposerResult :=
  if ms = [] ∨ maxScore ms < thr then
    generate_clarification_response query ms
  else
    { response := callLLM query (prepare_context ms),
      confidence := maxScore ms,
      sources := (ms.take 3).map VectorMatch.chunk_id,
      context_used := ms.length,
      needs_clarification := false }

/-! ## `OllamaVectorizer.vectorize_chunks` (`training_pipeline.py`) and C10

When no embedding backend is available (`self.embeddings is None`) each chunk
is paired with an all-zero 768-dimensional vector tagged
`vector_model="none"`; when the embedding call raises, the same fallback is
tagged `"error"`.  The embedding backend is modelled as an optional fallible
collaborator. -/

/-- `VectorizedChunk` dataclass of `training_pipeline.py`. -/
structure VectorizedChunk where
  chunk : TextChunk
  vector : List ℚ
  vector_model : Str
  embedding_timestamp : ℚ
deriving DecidableEq

/-- `OllamaVectorizer.vectorize_chunks`. -/
def vectorize_chunks
    (embedder : Option (List TextChunk → Except Str (List (List ℚ))))
    (modelName : Str) (now : ℚ) (chunks : List TextChunk) :
    List VectorizedChunk :=
  match embedder with
  | none => chunks.map (fun c => ⟨c, List.replicate 768 0, "none".data, now⟩)
  | some f =>
      match f chunks with
      | .ok embs => (chunks.zip embs).map (fun p => ⟨p.1, p.2, modelName, now⟩)
      | .error _ =>
          chunks.map (fun c => ⟨c, List.replicate 768 0, "error".data, now⟩)

/-- The `vectors.csv` row written for a vectorized chunk by
`EnhancedCSVStorage._save_vector_data`. -/
def rowOfChunk (kid : Str) (vc : VectorizedChunk) : VectorRow :=
  { knowledge_id := kid, chunk_id := vc.chunk.id,
    chunk_content := vc.chunk.content, chunk_type := vc.chunk.chunk_type,
    chunk_index := vc.chunk.chunk_index, vec := vc.vector }

/-! ## `ChatbotEngine` sessions (`core/chatbot_engine.py`)

`get_response` gets or creates the conversation for `company_id:session_id`,
appends the user message, runs `_cleanup_old_conversations` (which deletes
every conversation with `now - last_activity > 24*60*60`), generates a reply
and appends the assistant message.  The conversation dictionary is modelled
as an association list in insertion order; one call is modelled as atomic at
time `now` (all `time.time()` reads within the call return `now`).  The
reply text is irrelevant to session lifecycle and is the parameter
`reply`. -/

/-- One message of a `ConversationContext`. -/
structure Message where
  role : Str
  content : Str
  timestamp : ℚ
deriving DecidableEq

/-- `ConversationContext` dataclass of `core/chatbot_engine.py`. -/
structure ConversationContext where
  session_id : Str
  company_id : Str
  messages : List Message
  created_at : ℚ
  last_activity : ℚ
deriving DecidableEq

/-- The conversation dictionary `self.conversations`. -/
abbrev ConvMap := List (Str × ConversationContext)

/-- `ConversationContext.add_message`: append and bump `last_activity`. -/
def conv_add_message (role content : Str) (now : ℚ)
    (c : ConversationContext) : ConversationContext :=
  { c with messages := c.messages ++ [⟨role, content, now⟩],
           last_activity := now }

/-- In-place update of the dictionary entry under key `k`. -/
def updateKey (k : Str) (f : ConversationContext → ConversationContext) :
    ConvMap → ConvMap
  | [] => []
  | (k2, c) :: rest =>
      if k2 = k then (k2, f c) :: rest else (k2, c) :: updateKey k f rest

/-- `ChatbotEngine._cleanup_old_conversations`: collect the keys of
conversations with `now - last_activity > 24*60*60`, then delete them. -/
def cleanup_old_conversations (now : ℚ) (convs : ConvMap) : ConvMap :=
  let keys_to_remove :=
    (convs.filter (fun kc =>
      decide ((24 * 60 * 60 : ℚ) < now - kc.2.last_activity))).map Prod.fst
  convs.filter (fun kc => !keys_to_remove.contains kc.1)

/-- The session-state effect of `ChatbotEngine.get_response`: get or create
the conversation, append the user message, sweep old conversations, append
the assistant reply. -/
def get_response_conversations (now : ℚ) (message cid sid reply : Str)
    (convs : ConvMap) : ConvMap :=
  let key := cid ++ ":".data ++ sid
  let convs1 :=
    if (convs.lookup key).isSome then convs
    else convs ++ [(key, ⟨sid, cid, [], now, now⟩)]
  let convs2 := updateKey key (conv_add_message "user".data message now) convs1
  let convs3 := cleanup_old_conversations now convs2
  updateKey key (conv_add_message "assistant".data reply now) convs3

/-! ## Theorems -/

theorem wordsAux_nil (acc : Str) :
    wordsAux [] acc = if acc = [] then [] else [acc.reverse] := rfl

theorem pyWords_nil : pyWords [] = [] := rfl

theorem pyWords_cons_space {c : Char} (hc : isSpace c) (cs : Str) :
    pyWords (c :: cs) = pyWords cs := by
  simp [pyWords, wordsAux, hc]

/-- Closed form of the scanner when a word is pending: it finishes the current
word with the maximal non-whitespace run and continues after it. -/
theorem wordsAux_acc_ne (l : Str) : ∀ acc : Str, acc ≠ [] →
    wordsAux l acc =
      (acc.reverse ++ l.takeWhile (fun c => !isSpace c)) ::
        pyWords (l.dropWhile (fun c => !isSpace c)) := by
  induction l with
  | nil =>
      intro acc hacc
      simp [wordsAux, hacc, pyWords]
  | cons c cs ih =>
      intro acc hacc
      by_cases hc : isSpace c
      · simp [wordsAux, hc, hacc, List.takeWhile_cons, List.dropWhile_cons, pyWords]
      · have hcf : isSpace c = false := by simpa using hc
        have h1 : wordsAux (c :: cs) acc = wordsAux cs (c :: acc) := by
          simp [wordsAux, hcf]
        rw [h1, ih (c :: acc) (by simp)]
        simp [List.takeWhile_cons, List.dropWhile_cons, hcf]

theorem pyWords_cons_nonspace {c : Char} (hc : ¬ isSpace c) (cs : Str) :
    pyWords (c :: cs) =
      (c :: cs.takeWhile (fun x => !isSpace x)) ::
        pyWords (cs.dropWhile (fun x => !isSpace x)) := by
  have h := wordsAux_acc_ne cs [c] (by simp)
  simpa [pyWords, wordsAux, hc] using h

/-- A run of non-whitespace characters is a single word. -/
theorem pyWords_all_nonspace {l : Str} (h : ∀ c ∈ l, ¬ isSpace c) (hne : l ≠ []) :
    pyWords l = [l] := by
  cases l with
  | nil => exact absurd rfl hne
  | cons c cs =>
      rw [pyWords_cons_nonspace (h c (by simp)) cs]
      have ht : cs.takeWhile (fun x => !isSpace x) = cs := by
        apply List.takeWhile_eq_self_iff.mpr
        intro x hx
        simpa using h x (by simp [hx])
      have hd : cs.dropWhile (fun x => !isSpace x) = [] := by
        apply List.dropWhile_eq_nil_iff.mpr
        intro x hx
        simpa using h x (by simp [hx])
      simp [ht, hd, pyWords_nil]

/-- An all-whitespace string has no words. -/
theorem pyWords_all_space {l : Str} (h : ∀ c ∈ l, isSpace c) :
    pyWords l = [] := by
  induction l with
  | nil => exact pyWords_nil
  | cons c cs ih =>
      rw [pyWords_cons_space (h c (by simp))]
      exact ih (fun x hx => h x (by simp [hx]))

theorem takeWhile_append_false {p : α → Bool} {c : α} (hc : ¬ p c = true) :
    ∀ (a : List α), (∀ x ∈ a, p x) → ∀ b, (a ++ c :: b).takeWhile p = a := by
  intro a
  induction a with
  | nil => intro _ b; simp [List.takeWhile, hc]
  | cons x xs ih =>
      intro h b
      have hx : p x := h x (by simp)
      simp [List.takeWhile, hx, ih (fun y hy => h y (by simp [hy])) b]

theorem dropWhile_append_false {p : α → Bool} {c : α} (hc : ¬ p c = true) :
    ∀ (a : List α), (∀ x ∈ a, p x) → ∀ b, (a ++ c :: b).dropWhile p = c :: b := by
  intro a
  induction a with
  | nil => intro _ b; simp [List.dropWhile, hc]
  | cons x xs ih =>
      intro h b
      have hx : p x := h x (by simp)
      simp [List.dropWhile, hx, ih (fun y hy => h y (by simp [hy])) b]

theorem head_dropWhile_false {p : α → Bool} :
    ∀ (l : List α) {d : α} {v : List α}, l.dropWhile p = d :: v → ¬ p d = true := by
  intro l
  induction l with
  | nil => intro d v h; simp [List.dropWhile] at h
  | cons x xs ih =>
      intro d v h
      by_cases hx : p x
      · exact ih (by simpa [List.dropWhile, hx] using h)
      · simp only [List.dropWhile, hx] at h
        cases h
        simpa using hx

theorem pyWords_append_space_aux {c : Char} (hc : isSpace c) :
    ∀ (n : ℕ) (a : Str), a.length ≤ n →
      ∀ b, pyWords (a ++ c :: b) = pyWords a ++ pyWords b := by
  intro n
  induction n with
  | zero =>
      intro a ha b
      have : a = [] := List.length_eq_zero.mp (Nat.le_zero.mp ha)
      subst this
      simp [pyWords_cons_space hc, pyWords_nil]
  | succ n ih =>
      intro a ha b
      cases a with
      | nil => simp [pyWords_cons_space hc, pyWords_nil]
      | cons x xs =>
        have hxs0 : xs.length ≤ n := by simpa using ha
        by_cases hx : isSpace x
        · rw [List.cons_append, pyWords_cons_space hx, pyWords_cons_space hx]
          exact ih xs hxs0 b
        · rw [List.cons_append, pyWords_cons_nonspace hx, pyWords_cons_nonspace hx]
          by_cases hall : ∀ y ∈ xs, ¬ isSpace y
          · have h1 : (xs ++ c :: b).takeWhile (fun y => !isSpace y) = xs :=
              takeWhile_append_false (by simp [hc]) xs (by simpa using hall) b
            have h2 : (xs ++ c :: b).dropWhile (fun y => !isSpace y) = c :: b :=
              dropWhile_append_false (by simp [hc]) xs (by simpa using hall) b
            have h3 : xs.takeWhile (fun y => !isSpace y) = xs :=
              List.takeWhile_eq_self_iff.mpr (by simpa using hall)
            have h4 : xs.dropWhile (fun y => !isSpace y) = [] :=
              List.dropWhile_eq_nil_iff.mpr (by simpa using hall)
            simp [h1, h2, h3, h4, pyWords_cons_space hc, pyWords_nil]
          · -- xs contains a whitespace character; split xs at the first one
            have hxs : xs.takeWhile (fun y => !isSpace y) ++
                xs.dropWhile (fun y => !isSpace y) = xs :=
              List.takeWhile_append_dropWhile _ _
            have hrne : xs.dropWhile (fun y => !isSpace y) ≠ [] := by
              intro hnil
              apply hall
              intro y hy
              have hyu : y ∈ xs.takeWhile (fun y => !isSpace y) := by
                rw [← hxs] at hy; simpa [hnil] using hy
              have := List.mem_takeWhile_imp hyu
              simpa using this
            obtain ⟨d, v, hdv⟩ := List.exists_cons_of_ne_nil hrne
            have hd : isSpace d := by
              have := head_dropWhile_false xs hdv
              simpa using this
            have huall : ∀ y ∈ xs.takeWhile (fun z => !isSpace z),
                isSpace y = false :=
              fun y hy => by simpa using List.mem_takeWhile_imp hy
            have hxs2 : xs = xs.takeWhile (fun y => !isSpace y) ++ d :: v := by
              rw [← hdv]; exact hxs.symm
            have h1 : (xs ++ c :: b).takeWhile (fun y => !isSpace y)
                = xs.takeWhile (fun y => !isSpace y) := by
              conv_lhs => rw [hxs2]
              rw [List.append_assoc, List.cons_append]
              exact takeWhile_append_false (by simp [hd]) _
                (fun y hy => by simp [huall y hy]) _
            have h2 : (xs ++ c :: b).dropWhile (fun y => !isSpace y)
                = d :: (v ++ c :: b) := by
              conv_lhs => rw [hxs2]
              rw [List.append_assoc, List.cons_append]
              exact dropWhile_append_false (by simp [hd]) _
                (fun y hy => by simp [huall y hy]) _
            have hvlen : v.length ≤ n := by
              have hlen : (xs.takeWhile (fun y => !isSpace y)).length
                  + (d :: v).length = xs.length := by
                rw [← List.length_append, ← hxs2]
              simp only [List.length_cons] at hlen
              omega
            have ihv := ih v hvlen b
            rw [h1, h2, pyWords_cons_space hd, ihv, hdv, pyWords_cons_space hd]
            simp

/-- Key splitting lemma: a whitespace character separates the words of the two
sides. -/
theorem pyWords_append_space {c : Char} (hc : isSpace c) (a b : Str) :
    pyWords (a ++ c :: b) = pyWords a ++ pyWords b :=
  pyWords_append_space_aux hc a.length a le_rfl b

/-- Appending trailing whitespace does not change the words. -/
theorem pyWords_append_all_space :
    ∀ (t : Str), (∀ c ∈ t, isSpace c) → ∀ a, pyWords (a ++ t) = pyWords a := by
  intro t
  induction t with
  | nil => intro _ a; simp
  | cons c t ih =>
      intro h a
      rw [pyWords_append_space (h c (by simp)) a t]
      have ht : pyWords t = [] := pyWords_all_space (fun x hx => h x (by simp [hx]))
      rw [ht]
      simp

theorem pyWords_dropWhile_space (l : Str) :
    pyWords (l.dropWhile isSpace) = pyWords l := by
  induction l with
  | nil => rfl
  | cons c cs ih =>
      by_cases hc : isSpace c
      · rw [List.dropWhile_cons_of_pos (by simpa using hc), ih,
          pyWords_cons_space hc]
      · rw [List.dropWhile_cons_of_neg (by simpa using hc)]

/-- Stripping does not change the words. -/
theorem pyWords_pyStrip (l : Str) : pyWords (pyStrip l) = pyWords l := by
  have hm : (l.dropWhile isSpace).reverse.takeWhile isSpace ++
      (l.dropWhile isSpace).reverse.dropWhile isSpace = (l.dropWhile isSpace).reverse :=
    List.takeWhile_append_dropWhile _ _
  have hsplit : l.dropWhile isSpace =
      pyStrip l ++ ((l.dropWhile isSpace).reverse.takeWhile isSpace).reverse := by
    have h2 : ((l.dropWhile isSpace).reverse.dropWhile isSpace).reverse ++
        ((l.dropWhile isSpace).reverse.takeWhile isSpace).reverse
        = l.dropWhile isSpace := by
      rw [← List.reverse_append, hm, List.reverse_reverse]
    simp only [pyStrip]
    exact h2.symm
  have hall : ∀ c ∈ ((l.dropWhile isSpace).reverse.takeWhile isSpace).reverse,
      isSpace c := by
    intro c hcmem
    exact List.mem_takeWhile_imp (List.mem_reverse.mp hcmem)
  calc pyWords (pyStrip l)
      = pyWords (pyStrip l ++ ((l.dropWhile isSpace).reverse.takeWhile isSpace).reverse) :=
        (pyWords_append_all_space _ hall _).symm
    _ = pyWords (l.dropWhile isSpace) := by rw [← hsplit]
    _ = pyWords l := pyWords_dropWhile_space l

theorem pyWords_eq_nil_of_pyStrip_eq_nil {l : Str} (h : pyStrip l = []) :
    pyWords l = [] := by
  rw [← pyWords_pyStrip, h, pyWords_nil]

theorem splitNN_ne_nil : ∀ l, splitNN l ≠ []
  | [] => by simp [splitNN]
  | [c] => by simp [splitNN]
  | c :: d :: rest => by
      by_cases h : c = '\n' ∧ d = '\n'
      · simp [splitNN, h]
      · simp only [splitNN, if_neg h]
        cases hs : splitNN (d :: rest) <;> simp

theorem joinNN_splitNN : ∀ l, joinNN (splitNN l) = l
  | [] => rfl
  | [c] => rfl
  | c :: d :: rest => by
      by_cases h : c = '\n' ∧ d = '\n'
      · obtain ⟨rfl, rfl⟩ := h
        rw [show splitNN ('\n' :: '\n' :: rest) = [] :: splitNN rest from by
          simp [splitNN]]
        obtain ⟨p, ps, hps⟩ := List.exists_cons_of_ne_nil (splitNN_ne_nil rest)
        rw [hps]
        have := joinNN_splitNN rest
        rw [hps] at this
        simpa [joinNN] using this
      · obtain ⟨p, ps, hps⟩ :=
          List.exists_cons_of_ne_nil (splitNN_ne_nil (d :: rest))
        have hrec := joinNN_splitNN (d :: rest)
        rw [hps] at hrec
        rw [show splitNN (c :: d :: rest) = (c :: p) :: ps from by
          simp only [splitNN, if_neg h, hps]]
        cases ps with
        | nil => simpa [joinNN] using congrArg (c :: ·) hrec
        | cons q qs =>
            simp only [joinNN] at hrec ⊢
            rw [← hrec]
            simp

theorem pyWords_joinNN : ∀ ps : List Str, ps ≠ [] →
    pyWords (joinNN ps) = (ps.map pyWords).flatten
  | [], h => absurd rfl h
  | [p], _ => by simp [joinNN]
  | p :: q :: qs, _ => by
      have hnl : isSpace '\n' := by decide
      rw [show joinNN (p :: q :: qs) = p ++ '\n' :: ('\n' :: joinNN (q :: qs)) from
        rfl, pyWords_append_space hnl, pyWords_cons_space hnl,
        pyWords_joinNN (q :: qs) (by simp)]
      simp

/-- The words of a string are the concatenation of the words of its
`\x7bnewline newline\x7d`-separated pieces. -/
theorem pyWords_splitNN (l : Str) :
    ((splitNN l).map pyWords).flatten = pyWords l := by
  rw [← pyWords_joinNN (splitNN l) (splitNN_ne_nil l), joinNN_splitNN]

theorem pyWords_joinSp : ∀ g : List Str,
    pyWords (joinSp g) = (g.map pyWords).flatten
  | [] => by simp [joinSp, pyWords_nil]
  | [p] => by simp [joinSp]
  | p :: q :: qs => by
      have hsp : isSpace ' ' := by decide
      rw [show joinSp (p :: q :: qs) = p ++ ' ' :: joinSp (q :: qs) from rfl,
        pyWords_append_space hsp, pyWords_joinSp (q :: qs)]
      simp

/-- Every word produced by `pyWords` is nonempty and whitespace-free. -/
theorem pyWords_wordlike (l : Str) :
    ∀ w ∈ pyWords l, w ≠ [] ∧ ∀ c ∈ w, ¬ isSpace c := by
  suffices h : ∀ (l acc : Str), (∀ c ∈ acc, ¬ isSpace c) →
      ∀ w ∈ wordsAux l acc, w ≠ [] ∧ ∀ c ∈ w, ¬ isSpace c by
    exact h l [] (by simp)
  intro l
  induction l with
  | nil =>
      intro acc hacc w hw
      by_cases h0 : acc = [] <;> simp [wordsAux, h0] at hw
      subst hw
      constructor
      · simpa using h0
      · intro c hcmem
        exact hacc c (List.mem_reverse.mp hcmem)
  | cons c cs ih =>
      intro acc hacc w hw
      by_cases hc : isSpace c
      · by_cases h0 : acc = []
        · exact ih [] (by simp) w (by simpa [wordsAux, hc, h0] using hw)
        · simp only [wordsAux, hc, if_pos, if_neg h0] at hw
          rcases List.mem_cons.mp hw with h | h
          · subst h
            exact ⟨by simpa using h0, fun x hx => hacc x (List.mem_reverse.mp hx)⟩
          · exact ih [] (by simp) w h
      · refine ih (c :: acc) ?_ w (by simpa [wordsAux, hc] using hw)
        intro x hx
        rcases List.mem_cons.mp hx with h | h
        · subst h; exact fun hcon => hc hcon
        · exact hacc x h

/-- Joining genuine words with single spaces recovers exactly those words. -/
theorem pyWords_joinSp_of_words {g : List Str}
    (h : ∀ w ∈ g, w ≠ [] ∧ ∀ c ∈ w, ¬ isSpace c) :
    pyWords (joinSp g) = g := by
  rw [pyWords_joinSp]
  induction g with
  | nil => simp
  | cons w ws ih =>
      have hw := h w (by simp)
      rw [List.map_cons, pyWords_all_nonspace (fun c hcmem => hw.2 c hcmem) hw.1]
      simp only [List.flatten_cons, List.singleton_append]
      rw [ih (fun x hx => h x (by simp [hx]))]

theorem buildChunks_contents (sentTok : Str → List Str) (sid : Str)
    (total ov : ℕ) : ∀ (cs : List Str) (i : ℕ) (prev : Option Str),
    (buildChunks sentTok sid total ov i prev cs).map TextChunk.content
      = (cs.map pyStrip).filter (fun p => !p.isEmpty) := by
  intro cs
  induction cs with
  | nil => intro i prev; rfl
  | cons c rest ih =>
      intro i prev
      by_cases hc : pyStrip c = []
      · simp only [buildChunks, hc, if_pos, List.map_cons, List.filter_cons]
        simpa [hc] using ih (i + 1) prev
      · have hb : (pyStrip c).isEmpty = false := by simpa using hc
        simp only [buildChunks, hc, if_neg, List.map_cons, List.filter_cons]
        simp [hb, ih (i + 1) (some (pyStrip c))]

theorem filter_strip_words (l : List Str) :
    (((l.map pyStrip).filter (fun p => !p.isEmpty)).map pyWords).flatten
      = (l.map pyWords).flatten := by
  induction l with
  | nil => rfl
  | cons p ps ih =>
      by_cases hp : pyStrip p = []
      · have hpw : pyWords p = [] := by
          rw [← pyWords_pyStrip, hp, pyWords_nil]
        simp [List.filter_cons, hp, ih, hpw]
      · have hb : (pyStrip p).isEmpty = false := by simpa using hp
        simp only [List.map_cons, List.filter_cons]
        simp [hb, ih, pyWords_pyStrip]

theorem chunkByParagraphs_words (content : Str) :
    ((chunkByParagraphs content).map pyWords).flatten = pyWords content := by
  rw [chunkByParagraphs]
  by_cases h : ((splitNN content).map pyStrip).filter (fun p => !p.isEmpty) = []
  · rw [if_pos h]; simp
  · rw [if_neg h, filter_strip_words, pyWords_splitNN]

theorem groupSent_flatten (cs : ℕ) : ∀ (sents cur : List Str) (cwc : ℕ),
    (groupSent cs sents cur cwc).flatten = cur ++ sents := by
  intro sents
  induction sents with
  | nil =>
      intro cur cwc
      by_cases h : cur = [] <;> simp [groupSent, h]
  | cons s rest ih =>
      intro cur cwc
      by_cases h : cs < cwc + (pyWords s).length ∧ cur ≠ []
      · simp [groupSent, h, ih]
      · simp [groupSent, h, ih (cur ++ [s])]

theorem chunkBySentences_words (cs : ℕ) (sentTok : Str → List Str)
    (content : Str)
    (htok : ((sentTok content).map pyWords).flatten = pyWords content) :
    ((chunkBySentences cs sentTok content).map pyWords).flatten
      = pyWords content := by
  simp only [chunkBySentences]
  have hflat : ∀ gs : List (List Str),
      ((gs.map joinSp).map pyWords).flatten
        = ((gs.flatten).map pyWords).flatten := by
    intro gs
    induction gs with
    | nil => rfl
    | cons g rest ih =>
        simp only [List.map_cons, List.flatten_cons, pyWords_joinSp,
          List.map_append, List.flatten_append]
        rw [ih]
  rw [hflat, groupSent_flatten, List.nil_append, htok]

/-- With a positive stride, the sliding word windows of `_chunk_by_words`
cover every word of the input. -/
theorem chunkByWords_coverage {cs ov : ℕ} (hov : ov < cs) (content : Str) :
    ∀ w ∈ pyWords content, ∃ ch ∈ chunkByWords cs ov content, w ∈ pyWords ch := by
  intro w hw
  obtain ⟨i, hi, hget⟩ := List.getElem_of_mem hw
  have hstep : 0 < cs - ov := Nat.sub_pos_of_lt hov
  have h1 : i / (cs - ov) * (cs - ov) ≤ i := Nat.div_mul_le_self i (cs - ov)
  have h2 : i < i / (cs - ov) * (cs - ov) + (cs - ov) := by
    have hmod := Nat.div_add_mod i (cs - ov)
    have hlt := Nat.mod_lt i hstep
    have hcomm : i / (cs - ov) * (cs - ov) = (cs - ov) * (i / (cs - ov)) :=
      Nat.mul_comm _ _
    omega
  have hkn : i / (cs - ov) * (cs - ov) < (pyWords content).length :=
    lt_of_le_of_lt h1 hi
  have hbound : i / (cs - ov) <
      ((pyWords content).length + (cs - ov) - 1) / (cs - ov) := by
    have h3 : (i / (cs - ov) + 1) * (cs - ov) ≤
        (pyWords content).length + (cs - ov) - 1 := by
      have hs : (i / (cs - ov) + 1) * (cs - ov)
          = i / (cs - ov) * (cs - ov) + (cs - ov) := by ring
      omega
    have := (Nat.le_div_iff_mul_le hstep).mpr h3
    omega
  refine ⟨joinSp (((pyWords content).drop (i / (cs - ov) * (cs - ov))).take cs),
    ?_, ?_⟩
  · simp only [chunkByWords, if_pos hov, List.mem_map]
    exact ⟨i / (cs - ov), List.mem_range.mpr hbound, rfl⟩
  · have hwl : ∀ x ∈ ((pyWords content).drop (i / (cs - ov) * (cs - ov))).take cs,
        x ≠ [] ∧ ∀ c ∈ x, ¬ isSpace c := by
      intro x hx
      exact pyWords_wordlike content x
        (List.mem_of_mem_drop (List.mem_of_mem_take hx))
    rw [pyWords_joinSp_of_words hwl]
    have hj : i - i / (cs - ov) * (cs - ov) < cs := by omega
    have hj2 : i - i / (cs - ov) * (cs - ov) <
        ((pyWords content).drop (i / (cs - ov) * (cs - ov))).length := by
      rw [List.length_drop]
      omega
    have hj3 : i - i / (cs - ov) * (cs - ov) <
        (((pyWords content).drop (i / (cs - ov) * (cs - ov))).take cs).length := by
      rw [List.length_take]
      exact lt_min hj hj2
    have e3 : ∀ (m : ℕ) (hm : m < (pyWords content).length), m = i →
        (pyWords content).get ⟨m, hm⟩ = w := by
      intro m hm hmi
      subst hmi
      simpa using hget
    have hgv : (((pyWords content).drop (i / (cs - ov) * (cs - ov))).take
        cs).get ⟨i - i / (cs - ov) * (cs - ov), hj3⟩ = w := by
      rw [List.get_eq_getElem, List.getElem_take, List.getElem_drop]
      have := e3 (i / (cs - ov) * (cs - ov) + (i - i / (cs - ov) * (cs - ov)))
        (by omega) (by omega)
      simpa using this
    rw [← hgv]
    exact List.get_mem _ _ hj3

/-- C2 (amended): chunk coverage.  For every input text, every
`chunk_size ≥ 1` and every `overlap < chunk_size` (and any word-preserving
sentence tokenizer), the union of the word sets of the chunks returned by
`TextChunker.chunk_text` covers the words of the original text: no word is
silently lost by the paragraph → sentence-group → word-window chunking.
The restriction `overlap < chunk_size` is forced: with `overlap ≥ chunk_size`
the word-window stage iterates over a Python `range` with non-positive step
and produces no chunks at all (see the counterexample). -/
theorem chunk_text_coverage {cs ov : ℕ} (hov : ov < cs)
    (sentTok : Str → List Str)
    (htok : ∀ s, ((sentTok s).map pyWords).flatten = pyWords s)
    (content : Str) (sid : Str) :
    ∀ w ∈ pyWords content,
      ∃ tc ∈ chunk_text cs ov sentTok content sid, w ∈ pyWords tc.content := by
  intro w hw
  by_cases hempty : pyStrip content = []
  · rw [pyWords_eq_nil_of_pyStrip_eq_nil hempty] at hw
    exact absurd hw (List.not_mem_nil w)
  · simp only [chunk_text, if_neg hempty]
    -- words survive the sentence-grouping stage
    have hstage2 : (((chunkByParagraphs content).flatMap (fun p =>
        if cs < (pyWords p).length then chunkBySentences cs sentTok p else [p])).map
          pyWords).flatten = pyWords content := by
      rw [← chunkByParagraphs_words content]
      induction chunkByParagraphs content with
      | nil => rfl
      | cons p ps ih =>
          simp only [List.flatMap_cons, List.map_append, List.flatten_append,
            List.map_cons, List.flatten_cons, ih]
          by_cases hp : cs < (pyWords p).length
          · rw [if_pos hp, chunkBySentences_words cs sentTok p (htok p)]
          · rw [if_neg hp]
            simp
    -- hence w sits in some stage-2 piece
    have hw2 : w ∈ (((chunkByParagraphs content).flatMap (fun p =>
        if cs < (pyWords p).length then chunkBySentences cs sentTok p else [p])).map
          pyWords).flatten := by rw [hstage2]; exact hw
    obtain ⟨wl, hwl, hwin⟩ := List.mem_flatten.mp hw2
    obtain ⟨q, hq, rfl⟩ := List.mem_map.mp hwl
    -- stage 3 keeps the word in some final piece
    have hstage3 : ∃ ch ∈ (if cs < (pyWords q).length then chunkByWords cs ov q
        else [q]), w ∈ pyWords ch := by
      by_cases hql : cs < (pyWords q).length
      · rw [if_pos hql]
        exact chunkByWords_coverage hov q w hwin
      · rw [if_neg hql]
        exact ⟨q, by simp, hwin⟩
    obtain ⟨ch, hch, hwch⟩ := hstage3
    have hfinal : ch ∈ ((chunkByParagraphs content).flatMap (fun p =>
        if cs < (pyWords p).length then chunkBySentences cs sentTok p else [p])).flatMap
        (fun q => if cs < (pyWords q).length then chunkByWords cs ov q else [q]) :=
      List.mem_flatMap.mpr ⟨q, hq, hch⟩
    -- the chunk-building loop keeps the stripped piece
    have hchs : pyStrip ch ≠ [] := by
      intro hnil
      rw [← pyWords_pyStrip, hnil, pyWords_nil] at hwch
      exact List.not_mem_nil w hwch
    have hmem2 : pyStrip ch ∈ (((((chunkByParagraphs content).flatMap (fun p =>
        if cs < (pyWords p).length then chunkBySentences cs sentTok p
        else [p])).flatMap
        (fun q => if cs < (pyWords q).length then chunkByWords cs ov q
          else [q])).map pyStrip).filter (fun p => !p.isEmpty)) := by
      rw [List.mem_filter]
      exact ⟨List.mem_map_of_mem pyStrip hfinal, by simpa using hchs⟩
    rw [← buildChunks_contents sentTok sid _ ov _ 0 none] at hmem2
    obtain ⟨tc, htc, htcc⟩ := List.mem_map.mp hmem2
    refine ⟨tc, htc, ?_⟩
    rw [htcc, pyWords_pyStrip]
    exact hwch

/-- Witness for C2: concrete instantiation of the coverage theorem at
`chunk_size = 5`, `overlap = 2` on the text `"hello world"`. -/
theorem chunk_text_coverage_witness :
    (2 : ℕ) < 5 ∧ (∀ w ∈ pyWords "hello world".data,
      ∃ tc ∈ chunk_text 5 2 (fun s => [s]) "hello world".data "k".data,
        w ∈ pyWords tc.content) :=
  ⟨by decide, chunk_text_coverage (by decide) (fun s => [s])
    (fun s => by simp) "hello world".data "k".data⟩

/-- C2 counterexample: as stated ("for any overlap setting") the claim is
false.  With `chunk_size = 1` and `overlap = 2` the input `"a b"` (a single
one-sentence paragraph of two words) reaches `_chunk_by_words`, whose
`range(0, 2, 1 - 2)` iterates zero times, so `chunk_text` returns no chunks
and both words are silently lost. -/
theorem chunk_text_coverage_counterexample :
    ¬ (∀ w ∈ pyWords "a b".data,
      ∃ tc ∈ chunk_text 1 2 (fun s => [s]) "a b".data "k".data,
        w ∈ pyWords tc.content) := by
  decide

/-- C3 counterexample: on the input `"A. B. C. D."` with `max_sentences = 2`
the reply returned by `_limit_response_sentences` does NOT consist of exactly
2 sentence-like fragments: every fragment (`A`, `B`, `C`, `D`) is at most 10
characters long, so all are discarded, and the function returns the original
string, which splits into 4 fragments. -/
theorem limit_response_sentences_counterexample :
    ¬ ((((reSplitSentEnd (limit_response_sentences "A. B. C. D.".data 2)).map
      pyStrip).filter (fun p => !p.isEmpty)).length = 2) := by
  decide

/-- C3 (amended): on `"A. B. C. D."` with `max_sentences = 2` the function
returns the input unchanged (all four fragments are ≤ 10 characters and are
discarded; the ≤ 20-word original is returned as-is).  In general replies are
hard-limited to at most `max_sentences` fragments, every kept fragment has
more than 10 characters, and whenever at least one fragment is kept the
result is re-joined with terminal punctuation guaranteed. -/
theorem limit_response_sentences_spec :
    limit_response_sentences "A. B. C. D.".data 2 = "A. B. C. D.".data ∧
    (∀ (response : Str) (ms : ℕ),
      ((cleanSentences response).take ms).length ≤ ms ∧
      ∀ s ∈ (cleanSentences response).take ms, 10 < s.length) ∧
    (∀ (response : Str) (ms : ℕ), (cleanSentences response).take ms ≠ [] →
      endsWithPunct (limit_response_sentences response ms) = true) := by
  refine ⟨by decide, ?_, ?_⟩
  · intro response ms
    constructor
    · rw [List.length_take]
      exact min_le_left _ _
    · intro s hs
      have hs2 := List.mem_of_mem_take hs
      have := (List.mem_filter.mp hs2).2
      simp only [Bool.and_eq_true, decide_eq_true_eq] at this
      exact this.2
  · intro response ms hne
    have hresp : pyStrip response ≠ [] := by
      intro hnil
      apply hne
      have h0 : reSplitSentEnd (pyStrip response) = [[]] := by
        rw [hnil]; decide
      have h1 : allParts response = [] := by
        rw [allParts, h0]; decide
      have h2 : cleanSentences response = [] := by
        rw [cleanSentences, h1]; rfl
      simp [h2]
    rw [limit_response_sentences, if_neg hresp]
    simp only [if_pos hne]
    by_cases hp : endsWithPunct (joinPeriodSp ((cleanSentences response).take ms))
    · rw [if_pos hp]
      exact hp
    · rw [if_neg hp]
      rw [endsWithPunct, List.getLast?_concat]
      decide

/-- Witness for C3: a response with two long sentences keeps fragments, and
the returned reply ends with terminal punctuation. -/
theorem limit_response_sentences_witness :
    ((cleanSentences
      "This is a long sentence. Another pretty long sentence".data).take 2 ≠ []) ∧
    endsWithPunct (limit_response_sentences
      "This is a long sentence. Another pretty long sentence".data 2) = true :=
  ⟨by decide, limit_response_sentences_spec.2.2
    "This is a long sentence. Another pretty long sentence".data 2 (by decide)⟩

theorem findDup_none_append (now : ℚ) (md : List (Str × Str)) (h : Str)
    (e : KnowledgeEntry) :
    ∀ es, findDup now md h es = none →
      findDup now md h (es ++ [e]) =
        if content_hash e.content = h
        then some (es ++ [{ e with updated_at := now, metadata := md }], e.id)
        else none := by
  intro es
  induction es with
  | nil =>
      intro _
      by_cases hh : content_hash e.content = h <;> simp [findDup, hh]
  | cons x xs ih =>
      intro hnone
      by_cases hx : content_hash x.content = h
      · simp [findDup, hx] at hnone
      · simp only [findDup, hx, if_neg] at hnone
        have hxs : findDup now md h xs = none := by
          cases hfd : findDup now md h xs with
          | none => rfl
          | some v =>
              obtain ⟨l, i⟩ := v
              rw [hfd] at hnone
              simp at hnone
        rw [List.cons_append]
        simp only [findDup, hx, if_neg, ih hxs]
        by_cases hh : content_hash e.content = h <;> simp [hh]

theorem findDup_none_mono (now2 : ℚ) (md2 : List (Str × Str))
    (now : ℚ) (md : List (Str × Str)) (h : Str) :
    ∀ es, findDup now md h es = none → findDup now2 md2 h es = none := by
  intro es
  induction es with
  | nil => intro _; rfl
  | cons e rest ih =>
      intro hfd
      by_cases he : content_hash e.content = h
      · simp [findDup, he] at hfd
      · simp only [findDup, if_neg he] at hfd ⊢
        cases hrest : findDup now md h rest with
        | none => rw [ih hrest]
        | some v =>
            obtain ⟨l, i⟩ := v
            rw [hrest] at hfd
            simp at hfd

theorem findDup_some_again (now2 : ℚ) (md2 : List (Str × Str)) (h : Str)
    (now : ℚ) (md : List (Str × Str)) :
    ∀ es l i, findDup now md h es = some (l, i) →
      ∃ l2, findDup now2 md2 h l = some (l2, i) ∧ l2.length = l.length := by
  intro es
  induction es with
  | nil => intro l i hfd; simp [findDup] at hfd
  | cons e rest ih =>
      intro l i hfd
      by_cases he : content_hash e.content = h
      · simp only [findDup, if_pos he, Option.some.injEq, Prod.mk.injEq] at hfd
        obtain ⟨hl, hi⟩ := hfd
        subst hi
        refine ⟨{ e with updated_at := now2, metadata := md2 } :: rest, ?_, ?_⟩
        · rw [← hl]
          simp only [findDup]
          rw [if_pos (show content_hash
            ({ e with updated_at := now, metadata := md } :
              KnowledgeEntry).content = h from he)]
        · rw [← hl]
          simp
      · simp only [findDup, if_neg he] at hfd
        cases hrest : findDup now md h rest with
        | none =>
            rw [hrest] at hfd
            simp at hfd
        | some v =>
            rw [hrest] at hfd
            obtain ⟨l', i'⟩ := v
            simp only [Option.some.injEq, Prod.mk.injEq] at hfd
            obtain ⟨hl, hi⟩ := hfd
            subst hi
            obtain ⟨l2, hfd2, hlen⟩ := ih l' i' hrest
            refine ⟨e :: l2, ?_, ?_⟩
            · rw [← hl]
              simp only [findDup, if_neg he, hfd2]
            · rw [← hl]
              simpa using hlen

/-- C1 (amended): idempotent ingestion for already-stripped content.  For
every company state and every content string equal to its own `strip()`,
calling `add_knowledge` twice with byte-identical content (with the durable
save succeeding) returns the same entry id both times and does not grow the
entry list: the second call updates the existing entry instead of creating a
new one.  The restriction to stripped content is forced: the duplicate check
hashes the raw content while a new entry stores the stripped content, so
content with surrounding whitespace is never recognised as a duplicate of
itself (see the counterexample). -/
theorem add_knowledge_idempotent (now1 now2 : ℚ) (id1 id2 : Str)
    (entries : List KnowledgeEntry) (cid content source category : Str)
    (md : List (Str × Str)) (hstrip : pyStrip content = content) :
    (add_knowledge now2 id2 true
        (add_knowledge now1 id1 true entries cid content source category md).1
        cid content source category md).2
      = (add_knowledge now1 id1 true entries cid content source category md).2 ∧
    (add_knowledge now2 id2 true
        (add_knowledge now1 id1 true entries cid content source category md).1
        cid content source category md).1.length
      = (add_knowledge now1 id1 true entries cid content source category md).1.length := by
  cases hfd : findDup now1 md (content_hash content) entries with
  | some v =>
      obtain ⟨l, i⟩ := v
      obtain ⟨l2, hfd2, hlen⟩ :=
        findDup_some_again now2 md (content_hash content) now1 md entries l i hfd
      simp only [add_knowledge, hfd, hfd2]
      exact ⟨trivial, hlen⟩
  | none =>
      have hfdb : findDup now2 md (content_hash content) entries = none :=
        findDup_none_mono now2 md now1 md (content_hash content) entries hfd
      have happ := findDup_none_append now2 md (content_hash content)
        (⟨id1, cid, pyStrip content, source, category, md, now1, now1⟩ :
          KnowledgeEntry) entries hfdb
      rw [if_pos (show content_hash
          ((⟨id1, cid, pyStrip content, source, category, md, now1, now1⟩ :
            KnowledgeEntry)).content = content_hash content from by
        simp only [content_hash]
        exact hstrip)] at happ
      simp only [add_knowledge, hfd, if_pos, happ]
      refine ⟨trivial, ?_⟩
      simp

/-- Witness for C1: two successful `add_knowledge` calls with the stripped
content `"hello"` starting from an empty store return the same id and leave
exactly one entry. -/
theorem add_knowledge_idempotent_witness :
    pyStrip "hello".data = "hello".data ∧
    (add_knowledge 1 "id2".data true
        (add_knowledge 0 "id1".data true [] "acme".data "hello".data
          "manual".data "general".data []).1
        "acme".data "hello".data "manual".data "general".data []).2
      = (add_knowledge 0 "id1".data true [] "acme".data "hello".data
          "manual".data "general".data []).2 ∧
    (add_knowledge 1 "id2".data true
        (add_knowledge 0 "id1".data true [] "acme".data "hello".data
          "manual".data "general".data []).1
        "acme".data "hello".data "manual".data "general".data []).1.length
      = (add_knowledge 0 "id1".data true [] "acme".data "hello".data
          "manual".data "general".data []).1.length :=
  ⟨by decide, add_knowledge_idempotent 0 1 "id1".data "id2".data [] "acme".data
    "hello".data "manual".data "general".data [] (by decide)⟩

/-- C1 counterexample: the claim quantifies over *every* content string, but
for `"x "` (trailing blank) two byte-identical `add_knowledge` calls create
two entries: the duplicate check hashes the raw `"x "` while the stored entry
holds the stripped `"x"`, so the hashes differ and the company's entry list
grows from 1 to 2. -/
theorem add_knowledge_idempotent_counterexample :
    (add_knowledge 0 "id1".data true [] "acme".data "x ".data "manual".data
      "general".data []).1.length = 1 ∧
    (add_knowledge 1 "id2".data true
      (add_knowledge 0 "id1".data true [] "acme".data "x ".data "manual".data
        "general".data []).1
      "acme".data "x ".data "manual".data "general".data []).1.length = 2 := by
  decide

/-- C8 (amended): behaviour of `add_knowledge` when the durable write fails.
On the new-entry path (no duplicate in the store, fresh id) a failed save
raises (`Except.error`) and the in-memory index is left exactly unchanged:
the appended entry is rolled back.  On the duplicate-update path, however,
the result of `_save_company_knowledge` is ignored: the call succeeds with
the existing entry's id regardless of the save outcome, and the in-place
`updated_at`/`metadata` modification remains in memory.  (The claim's
assertion that *every* failed write makes the call fail with the index
unchanged is refuted by the duplicate path; see the counterexample.) -/
theorem add_knowledge_save_failure (now : ℚ) (freshId : Str)
    (entries : List KnowledgeEntry) (cid content source category : Str)
    (md : List (Str × Str)) :
    (findDup now md (content_hash content) entries = none →
      (∀ e ∈ entries, e.id ≠ freshId) →
      add_knowledge now freshId false entries cid content source category md
        = (entries, Except.error "Failed to save knowledge entry".data)) ∧
    (∀ l i saveOk, findDup now md (content_hash content) entries = some (l, i) →
      add_knowledge now freshId saveOk entries cid content source category md
        = (l, Except.ok i)) := by
  constructor
  · intro hfd hfresh
    have hnot : (⟨freshId, cid, pyStrip content, source, category, md, now, now⟩ :
        KnowledgeEntry) ∉ entries := by
      intro hmem
      exact hfresh _ hmem rfl
    simp only [add_knowledge, hfd, Bool.false_eq_true, if_neg]
    rw [List.erase_append_right _ hnot, List.erase_cons_head]
    simp
  · intro l i saveOk hfd
    simp only [add_knowledge, hfd]

/-- Witness for C8: starting from an empty store, with a failing save the
new-entry path reports the error and leaves the store empty. -/
theorem add_knowledge_save_failure_witness :
    findDup 0 [] (content_hash "x".data) [] = none ∧
    add_knowledge 0 "id1".data false [] "acme".data "x".data "m".data "g".data []
      = ([], Except.error "Failed to save knowledge entry".data) :=
  ⟨by decide, (add_knowledge_save_failure 0 "id1".data [] "acme".data "x".data
    "m".data "g".data []).1 (by decide) (by decide)⟩

/-- C8 counterexample: on the duplicate-update path a failed durable write
does NOT fail the call and does NOT leave the in-memory index unchanged.
With one stored entry of content `"x"`, re-adding `"x"` while the save fails
returns `Except.ok` with the existing id, and the stored entry's
`updated_at` has been modified in memory. -/
theorem add_knowledge_save_failure_counterexample :
    (add_knowledge 5 "id1".data false
      [⟨"id0".data, "acme".data, "x".data, "m".data, "g".data, [], 0, 0⟩]
      "acme".data "x".data "m".data "g".data []).2 = Except.ok "id0".data ∧
    (add_knowledge 5 "id1".data false
      [⟨"id0".data, "acme".data, "x".data, "m".data, "g".data, [], 0, 0⟩]
      "acme".data "x".data "m".data "g".data []).1
      ≠ [⟨"id0".data, "acme".data, "x".data, "m".data, "g".data, [], 0, 0⟩] := by
  decide

/-- C4: for every input string (including the empty string) and any sentence
tokenizer, the analyzer's quality score lies in `[0, 1]` and equals 1.0 minus
exactly the four specified penalties (short content 0.3, average words per
sentence above 50 0.2, no sentence-terminating punctuation 0.2, distinct-word
ratio below 0.5 0.1), floored at 0.0. -/
theorem quality_score_range_and_formula (sentTok : Str → List Str)
    (content : Str) :
    0 ≤ analyze_quality sentTok content ∧
    analyze_quality sentTok content ≤ 1 ∧
    analyze_quality sentTok content
      = qualityScoreSpec content (pyWords content).length
          (sentTok content).length := by
  have hc2 : (0 < (sentTok content).length ∧
      (50 : ℚ) < ((pyWords content).length : ℚ) / ((sentTok content).length : ℚ))
      ↔ (0 < (sentTok content).length ∧
        50 * (sentTok content).length < (pyWords content).length) := by
    constructor
    · rintro ⟨hs, hd⟩
      refine ⟨hs, ?_⟩
      have hs' : (0 : ℚ) < ((sentTok content).length : ℚ) := by
        exact_mod_cast hs
      have := (lt_div_iff₀ hs').mp hd
      exact_mod_cast this
    · rintro ⟨hs, hm⟩
      refine ⟨hs, ?_⟩
      have hs' : (0 : ℚ) < ((sentTok content).length : ℚ) := by
        exact_mod_cast hs
      rw [lt_div_iff₀ hs']
      exact_mod_cast hm
  have hc4 : (((pyWords (toLowerStr content)).dedup.length : ℚ) <
      ((pyWords (toLowerStr content)).length : ℚ) * (1/2))
      ↔ (((pyWords (toLowerStr content)).dedup.length : ℚ) <
        ((pyWords (toLowerStr content)).length : ℚ) / 2) := by
    constructor <;> intro h <;> linarith
  simp only [analyze_quality, calculate_quality_score, qualityScoreSpec,
    ← hc2, ← hc4]
  refine ⟨le_max_left 0 _, ?_, ?_⟩
  · apply max_le (by norm_num)
    split_ifs <;> norm_num
  · split_ifs <;> norm_num

theorem scoreLe_trans : ∀ a b c, scoreLe a b = true → scoreLe b c = true →
    scoreLe a c = true := by
  intro a b c h1 h2
  simp only [scoreLe, decide_eq_true_eq] at *
  exact le_trans h2 h1

theorem scoreLe_total : ∀ a b, (scoreLe a b || scoreLe b a) = true := by
  intro a b
  simp only [scoreLe, Bool.or_eq_true, decide_eq_true_eq]
  exact le_total _ _

/-- Sorting then capping yields a score-descending list. -/
theorem sortTake_pairwise (l : List VectorMatch) (maxr : ℕ) :
    ((sortByScoreDesc l).take maxr).Pairwise
      (fun a b => b.similarity_score ≤ a.similarity_score) := by
  have hs : List.Pairwise (fun a b => scoreLe a b = true) (l.mergeSort scoreLe) :=
    List.sorted_mergeSort scoreLe_trans scoreLe_total l
  have hp : List.Pairwise (fun a b => scoreLe a b = true)
      ((l.mergeSort scoreLe).take maxr) :=
    List.Pairwise.sublist (List.take_sublist maxr _) hs
  exact hp.imp (fun h => by simpa [scoreLe] using h)

/-- Membership in the sorted, capped list is membership in the raw list. -/
theorem mem_sortTake {m : VectorMatch} {l : List VectorMatch} {maxr : ℕ}
    (h : m ∈ (sortByScoreDesc l).take maxr) : m ∈ l := by
  have h1 : m ∈ sortByScoreDesc l := List.mem_of_mem_take h
  exact (List.mergeSort_perm l scoreLe).mem_iff.mp h1

theorem sortTake_length_le (l : List VectorMatch) (maxr : ℕ) :
    ((sortByScoreDesc l).take maxr).length ≤ maxr := by
  rw [List.length_take]
  exact min_le_left _ _

/-- Every match kept by `search_vectors` scores at least the threshold. -/
theorem search_vectors_threshold (sim : List ℚ → List ℚ → ℚ) (qv : List ℚ)
    (rows : List VectorRow) (thr : ℚ) (maxr : ℕ) :
    ∀ m ∈ search_vectors sim qv rows thr maxr, thr ≤ m.similarity_score := by
  intro m hm
  simp only [search_vectors] at hm
  have hm2 := mem_sortTake hm
  obtain ⟨r, _, hfr⟩ := List.mem_filterMap.mp hm2
  by_cases hth : thr ≤ cosineGuard sim qv r.vec
  · rw [if_pos hth] at hfr
    cases hfr
    exact hth
  · rw [if_neg hth] at hfr
    cases hfr

/-- Every match kept by the keyword fallback scores at least `0.1`. -/
theorem fallback_search_threshold (query : Str) (entries : List KnowledgeEntry)
    (maxr : ℕ) :
    ∀ m ∈ fallback_search query entries maxr,
      (1 : ℚ)/10 ≤ m.similarity_score := by
  intro m hm
  rw [fallback_search] at hm
  by_cases hne : entries = []
  · rw [if_pos hne] at hm
    exact absurd hm (List.not_mem_nil m)
  · rw [if_neg hne] at hm
    have hm2 := mem_sortTake hm
    obtain ⟨e, _, hfe⟩ := List.mem_filterMap.mp hm2
    by_cases hth : (1 : ℚ)/10 ≤
        min ((keywordScore (extract_keywords query) (toLowerStr query)
          (toLowerStr e.content) : ℚ) / 20) 1
    · rw [if_pos hth] at hfe
      cases hfe
      exact hth
    · rw [if_neg hth] at hfe
      cases hfe

/-- C6: retrieval ordering, threshold and cap.  For every query and store,
both the vector tier (`search_vectors`) and the keyword fallback tier
(`_fallback_to_traditional_search`) return a list sorted by similarity score
in descending order, containing no match below the tier's threshold
(`similarity_threshold` for the vector tier, the literal `0.1` for the
keyword tier), of length at most `max_results`. -/
theorem retrieval_sorted_threshold_capped :
    (∀ (sim : List ℚ → List ℚ → ℚ) (qv : List ℚ) (rows : List VectorRow)
      (thr : ℚ) (maxr : ℕ),
      (search_vectors sim qv rows thr maxr).Pairwise
        (fun a b => b.similarity_score ≤ a.similarity_score) ∧
      (∀ m ∈ search_vectors sim qv rows thr maxr, thr ≤ m.similarity_score) ∧
      (search_vectors sim qv rows thr maxr).length ≤ maxr) ∧
    (∀ (query : Str) (entries : List KnowledgeEntry) (maxr : ℕ),
      (fallback_search query entries maxr).Pairwise
        (fun a b => b.similarity_score ≤ a.similarity_score) ∧
      (∀ m ∈ fallback_search query entries maxr,
        (1 : ℚ)/10 ≤ m.similarity_score) ∧
      (fallback_search query entries maxr).length ≤ maxr) := by
  constructor
  · intro sim qv rows thr maxr
    refine ⟨?_, search_vectors_threshold sim qv rows thr maxr, ?_⟩
    · simp only [search_vectors]
      exact sortTake_pairwise _ maxr
    · simp only [search_vectors]
      exact sortTake_length_le _ maxr
  · intro query entries maxr
    refine ⟨?_, fallback_search_threshold query entries maxr, ?_⟩ <;>
      rw [fallback_search] <;> by_cases hne : entries = []
    · rw [if_pos hne]; exact List.Pairwise.nil
    · rw [if_neg hne]; exact sortTake_pairwise _ maxr
    · rw [if_pos hne]; simp
    · rw [if_neg hne]; exact sortTake_length_le _ maxr

/-- Witness for C6: a one-row store whose (guarded) similarity is 1 for a
constant abstract cosine; the single result is sorted, meets the threshold
`1/2` and respects the cap, and the keyword tier on an empty store is empty.
-/
theorem retrieval_sorted_threshold_capped_witness :
    (search_vectors (fun _ _ => 1) [1]
      [⟨"k".data, "c".data, "t".data, "sentence".data, 0, [1]⟩]
      (1/2) 5).Pairwise
        (fun a b => b.similarity_score ≤ a.similarity_score) ∧
    (mkVectorMatch ⟨"k".data, "c".data, "t".data, "sentence".data, 0, [1]⟩
        (cosineGuard (fun _ _ => 1) [1] [1])
      ∈ search_vectors (fun _ _ => 1) [1]
        [⟨"k".data, "c".data, "t".data, "sentence".data, 0, [1]⟩] (1/2) 5) ∧
    ((1 : ℚ)/2 ≤ (mkVectorMatch
        ⟨"k".data, "c".data, "t".data, "sentence".data, 0, [1]⟩
        (cosineGuard (fun _ _ => 1) [1] [1])).similarity_score) ∧
    (search_vectors (fun _ _ => 1) [1]
      [⟨"k".data, "c".data, "t".data, "sentence".data, 0, [1]⟩]
      (1/2) 5).length ≤ 5 ∧
    (fallback_search "hi".data [] 5).Pairwise
      (fun a b => b.similarity_score ≤ a.similarity_score) ∧
    (fallback_search "hi".data [] 5).length ≤ 5 := by
  have hmem : mkVectorMatch
      ⟨"k".data, "c".data, "t".data, "sentence".data, 0, [1]⟩
      (cosineGuard (fun _ _ => 1) [1] [1])
      ∈ search_vectors (fun _ _ => 1) [1]
        [⟨"k".data, "c".data, "t".data, "sentence".data, 0, [1]⟩] (1/2) 5 := by
    simp only [search_vectors, List.filterMap, cosineGuard, sumSq]
    norm_num [sortByScoreDesc, mkVectorMatch]
  refine ⟨((retrieval_sorted_threshold_capped.1 (fun _ _ => 1) [1]
      [⟨"k".data, "c".data, "t".data, "sentence".data, 0, [1]⟩] (1/2) 5)).1,
    hmem,
    ((retrieval_sorted_threshold_capped.1 (fun _ _ => 1) [1]
      [⟨"k".data, "c".data, "t".data, "sentence".data, 0, [1]⟩]
        (1/2) 5)).2.1 _ hmem,
    ((retrieval_sorted_threshold_capped.1 (fun _ _ => 1) [1]
      [⟨"k".data, "c".data, "t".data, "sentence".data, 0, [1]⟩] (1/2) 5)).2.2,
    (retrieval_sorted_threshold_capped.2 "hi".data [] 5).1,
    (retrieval_sorted_threshold_capped.2 "hi".data [] 5).2.2⟩

/-- C7: fallback correctness.  If the vector tier returns an empty list, the
combined retrieval (`search_vectors_with_fallback`) equals the keyword-tier
output for the same query and store; and when both tiers are empty the
combined result is the empty list (no exception is raised for "no
results"). -/
theorem with_fallback_eq_fallback (sim : List ℚ → List ℚ → ℚ) (qv : List ℚ)
    (rows : List VectorRow) (thr : ℚ) (maxr : ℕ) (query : Str)
    (entries : List KnowledgeEntry) :
    (search_vectors sim qv rows thr maxr = [] →
      search_vectors_with_fallback sim qv rows thr maxr query entries
        = fallback_search query entries maxr) ∧
    (search_vectors sim qv rows thr maxr = [] →
      fallback_search query entries maxr = [] →
      search_vectors_with_fallback sim qv rows thr maxr query entries = []) := by
  constructor
  · intro hempty
    rw [search_vectors_with_fallback]
    simp only [hempty]
    simp
  · intro hempty hfb
    rw [search_vectors_with_fallback]
    simp only [hempty]
    simp [hfb]

/-- Witness for C7: with an empty vector store and an empty knowledge store,
the combined retrieval returns the (empty) keyword-tier output. -/
theorem with_fallback_eq_fallback_witness :
    search_vectors (fun _ _ => 0) [] [] (3/10) 5 = [] ∧
    search_vectors_with_fallback (fun _ _ => 0) [] [] (3/10) 5 "hi".data []
      = fallback_search "hi".data [] 5 ∧
    search_vectors_with_fallback (fun _ _ => 0) [] [] (3/10) 5 "hi".data []
      = [] := by
  have hempty : search_vectors (fun _ _ => (0 : ℚ)) [] [] (3/10) 5 = [] := by
    simp [search_vectors, sortByScoreDesc]
  have hfb : fallback_search "hi".data [] 5 = [] := by
    simp [fallback_search]
  exact ⟨hempty,
    (with_fallback_eq_fallback (fun _ _ => 0) [] [] (3/10) 5 "hi".data []).1
      hempty,
    (with_fallback_eq_fallback (fun _ _ => 0) [] [] (3/10) 5 "hi".data []).2
      hempty hfb⟩

/-- C5: composer clarification decision and no-throw degrade.  For every
clarification threshold, LLM collaborator, query and match list, if the
match list is empty or its top similarity score is below the threshold, the
composed result has `needs_clarification = true` and `confidence` equal to
the top match score, which is `0.0` when there are no matches.  The model is
a total function for all inputs — in particular when both retrieval tiers
returned empty — mirroring the method's outer exception handler, which
degrades any internal failure to a clarification result instead of
raising. -/
theorem generate_response_clarification (thr : ℚ) (callLLM : Str → Str → Str)
    (query : Str) (ms : List VectorMatch)
    (h : ms = [] ∨ maxScore ms < thr) :
    (generate_response thr callLLM query ms).needs_clarification = true ∧
    (generate_response thr callLLM query ms).confidence = maxScore ms ∧
    maxScore ([] : List VectorMatch) = 0 := by
  rw [generate_response, if_pos h]
  exact ⟨rfl, rfl, rfl⟩

/-- Witness for C5: an empty match list yields a clarification result with
confidence 0. -/
theorem generate_response_clarification_witness :
    (generate_response (3/10) (fun _ _ => [])
      "hello".data []).needs_clarification = true ∧
    (generate_response (3/10) (fun _ _ => []) "hello".data []).confidence
      = maxScore [] ∧
    maxScore ([] : List VectorMatch) = 0 :=
  generate_response_clarification (3/10) (fun _ _ => []) "hello".data []
    (Or.inl rfl)

theorem sumSq_replicate_zero : sumSq (List.replicate 768 0) = 0 := by
  rw [sumSq, List.map_replicate, List.sum_replicate]
  norm_num

/-- C10: fallback pseudo-embeddings never rank.  Chunks vectorized without a
backing embedding model (backend absent, or the embedding call failing) are
stored with `vector_model` `"none"`/`"error"` and an all-zero 768-dimensional
vector; the cosine similarity guard returns `0.0` for any zero-norm vector,
so whenever `similarity_threshold > 0` the match corresponding to such a row
never appears in the vector tier's results, for any store contents. -/
theorem fallback_vectors_never_rank
    (embedder : Option (List TextChunk → Except Str (List (List ℚ))))
    (modelName : Str) (now : ℚ) (chunks : List TextChunk)
    (hfail : embedder = none ∨
      ∃ f err, embedder = some f ∧ f chunks = Except.error err)
    (vc : VectorizedChunk)
    (hvc : vc ∈ vectorize_chunks embedder modelName now chunks)
    (kid : Str) (sim : List ℚ → List ℚ → ℚ) (qv : List ℚ)
    (rows : List VectorRow) (thr : ℚ) (maxr : ℕ) (hthr : 0 < thr) :
    vc.vector = List.replicate 768 0 ∧
    (vc.vector_model = "none".data ∨ vc.vector_model = "error".data) ∧
    mkVectorMatch (rowOfChunk kid vc)
        (cosineGuard sim qv (rowOfChunk kid vc).vec)
      ∉ search_vectors sim qv rows thr maxr := by
  have hshape : vc.vector = List.replicate 768 0 ∧
      (vc.vector_model = "none".data ∨ vc.vector_model = "error".data) := by
    rcases hfail with hnone | ⟨f, err, hsome, herr⟩
    · rw [hnone] at hvc
      simp only [vectorize_chunks, List.mem_map] at hvc
      obtain ⟨c, _, rfl⟩ := hvc
      exact ⟨rfl, Or.inl rfl⟩
    · rw [hsome] at hvc
      simp only [vectorize_chunks, herr, List.mem_map] at hvc
      obtain ⟨c, _, rfl⟩ := hvc
      exact ⟨rfl, Or.inr rfl⟩
  refine ⟨hshape.1, hshape.2, ?_⟩
  intro hmem
  have hscore := search_vectors_threshold sim qv rows thr maxr _ hmem
  have hzero : cosineGuard sim qv (rowOfChunk kid vc).vec = 0 := by
    rw [cosineGuard, if_pos]
    right
    rw [rowOfChunk]
    simp only [hshape.1]
    exact sumSq_replicate_zero
  rw [show (mkVectorMatch (rowOfChunk kid vc)
      (cosineGuard sim qv (rowOfChunk kid vc).vec)).similarity_score
      = cosineGuard sim qv (rowOfChunk kid vc).vec from rfl, hzero] at hscore
  exact absurd (lt_of_lt_of_le hthr hscore) (lt_irrefl 0)

/-- Witness for C10: with no embedding backend, a concrete chunk gets the
zero fallback vector and its match is absent from the vector tier's results
for a positive threshold. -/
theorem fallback_vectors_never_rank_witness :
    ((none : Option (List TextChunk → Except Str (List (List ℚ)))) = none ∨
      ∃ f err, (none : Option (List TextChunk → Except Str (List (List ℚ))))
        = some f ∧ f [] = Except.error err) ∧
    (⟨⟨"c1".data, "hi".data, 0, 1, 1, "s".data, 0, "sentence".data⟩,
        List.replicate 768 0, "none".data, (0 : ℚ)⟩ : VectorizedChunk)
      ∈ vectorize_chunks none "m".data 0
        [⟨"c1".data, "hi".data, 0, 1, 1, "s".data, 0, "sentence".data⟩] ∧
    (0 : ℚ) < 3/10 ∧
    mkVectorMatch (rowOfChunk "k".data
        ⟨⟨"c1".data, "hi".data, 0, 1, 1, "s".data, 0, "sentence".data⟩,
          List.replicate 768 0, "none".data, 0⟩)
        (cosineGuard (fun _ _ => 0) []
          (rowOfChunk "k".data
            ⟨⟨"c1".data, "hi".data, 0, 1, 1, "s".data, 0, "sentence".data⟩,
              List.replicate 768 0, "none".data, 0⟩).vec)
      ∉ search_vectors (fun _ _ => 0) [] [] (3/10) 5 :=
  ⟨Or.inl rfl, List.Mem.head _, by norm_num,
    (fallback_vectors_never_rank none "m".data 0
      [⟨"c1".data, "hi".data, 0, 1, 1, "s".data, 0, "sentence".data⟩]
      (Or.inl rfl)
      ⟨⟨"c1".data, "hi".data, 0, 1, 1, "s".data, 0, "sentence".data⟩,
        List.replicate 768 0, "none".data, 0⟩
      (List.Mem.head _)
      "k".data (fun _ _ => 0) [] [] (3/10) 5 (by norm_num)).2.2⟩

theorem updateKey_mem {k : Str}
    {f : ConversationContext → ConversationContext} :
    ∀ {m : ConvMap} {kc : Str × ConversationContext}, kc ∈ updateKey k f m →
      kc ∈ m ∨ ∃ kc2 ∈ m, kc = (kc2.1, f kc2.2) := by
  intro m
  induction m with
  | nil => intro kc h; simp [updateKey] at h
  | cons x rest ih =>
      intro kc h
      obtain ⟨k2, c⟩ := x
      by_cases hk : k2 = k
      · rw [updateKey, if_pos hk] at h
        rcases List.mem_cons.mp h with h | h
        · exact Or.inr ⟨(k2, c), by simp, h⟩
        · exact Or.inl (List.mem_cons_of_mem _ h)
      · rw [updateKey, if_neg hk] at h
        rcases List.mem_cons.mp h with h | h
        · exact Or.inl (by simp [h])
        · rcases ih h with h2 | ⟨kc2, hkc2, heq⟩
          · exact Or.inl (List.mem_cons_of_mem _ h2)
          · exact Or.inr ⟨kc2, List.mem_cons_of_mem _ hkc2, heq⟩

/-- Whatever survives the cleanup sweep was active within the last 24
hours. -/
theorem cleanup_retained (now : ℚ) (convs : ConvMap) :
    ∀ kc ∈ cleanup_old_conversations now convs,
      now - kc.2.last_activity ≤ 24 * 60 * 60 := by
  intro kc hkc
  rw [cleanup_old_conversations] at hkc
  have hmem := (List.mem_filter.mp hkc).1
  have hkey := (List.mem_filter.mp hkc).2
  by_contra hstale
  push_neg at hstale
  have hin : kc.1 ∈ (convs.filter (fun kc =>
      decide ((24 * 60 * 60 : ℚ) < now - kc.2.last_activity))).map Prod.fst :=
    List.mem_map_of_mem Prod.fst
      (List.mem_filter.mpr ⟨hmem, by simpa using hstale⟩)
  have hc : ((convs.filter (fun kc =>
      decide ((24 * 60 * 60 : ℚ) < now - kc.2.last_activity))).map
        Prod.fst).contains kc.1 = true := List.elem_iff.mpr hin
  rw [hc] at hkey
  simp at hkey

/-- With unique dictionary keys (a Python `dict` invariant), the cleanup
sweep removes exactly the conversations with
`now - last_activity > 24*60*60`. -/
theorem cleanup_eq_filter (now : ℚ) (m : ConvMap)
    (hnodup : (m.map Prod.fst).Nodup) :
    cleanup_old_conversations now m
      = m.filter (fun kc => decide (now - kc.2.last_activity ≤ 24 * 60 * 60)) := by
  rw [cleanup_old_conversations]
  apply List.filter_congr
  intro kc hkc
  by_cases hstale : (24 * 60 * 60 : ℚ) < now - kc.2.last_activity
  · have hin : kc.1 ∈ (m.filter (fun kc =>
        decide ((24 * 60 * 60 : ℚ) < now - kc.2.last_activity))).map Prod.fst :=
      List.mem_map_of_mem Prod.fst
        (List.mem_filter.mpr ⟨hkc, by simpa using hstale⟩)
    have hc : ((m.filter (fun kc =>
        decide ((24 * 60 * 60 : ℚ) < now - kc.2.last_activity))).map
          Prod.fst).contains kc.1 = true := List.elem_iff.mpr hin
    rw [hc]
    simp only [Bool.not_true]
    exact (decide_eq_false (not_le.mpr hstale)).symm
  · have hnotin : kc.1 ∉ (m.filter (fun kc =>
        decide ((24 * 60 * 60 : ℚ) < now - kc.2.last_activity))).map Prod.fst := by
      intro hin
      obtain ⟨kc2, hkc2mem, hfst⟩ := List.mem_map.mp hin
      have hkc2 := List.mem_filter.mp hkc2mem
      have heq : kc2 = kc :=
        List.inj_on_of_nodup_map hnodup hkc2.1 hkc hfst
      rw [heq] at hkc2
      have := of_decide_eq_true hkc2.2
      exact hstale this
    cases hb : ((m.filter (fun kc =>
        decide ((24 * 60 * 60 : ℚ) < now - kc.2.last_activity))).map
          Prod.fst).contains kc.1 with
    | true => exact absurd (List.elem_iff.mp hb) hnotin
    | false =>
        simp only [Bool.not_false]
        exact (decide_eq_true (not_lt.mp hstale)).symm

/-- C9: session 24h eviction.  Conversations are evicted exactly when
`now - last_activity > 24` hours, by a sweep run inside each
response-generating call (given the dictionary's unique keys); consequently,
after any `get_response` call (modelled as atomic at time `now`), every
conversation retained in the in-memory map has `last_activity` within the
past 24 hours — a session inactive for more than 24 hours never survives a
subsequent request. -/
theorem session_eviction_24h :
    (∀ (now : ℚ) (m : ConvMap), (m.map Prod.fst).Nodup →
      cleanup_old_conversations now m
        = m.filter (fun kc =>
            decide (now - kc.2.last_activity ≤ 24 * 60 * 60))) ∧
    (∀ (now : ℚ) (message cid sid reply : Str) (convs : ConvMap),
      ∀ kc ∈ get_response_conversations now message cid sid reply convs,
        now - kc.2.last_activity ≤ 24 * 60 * 60) := by
  constructor
  · exact cleanup_eq_filter
  · intro now message cid sid reply convs kc hkc
    rw [get_response_conversations] at hkc
    rcases updateKey_mem hkc with h | ⟨kc2, _, rfl⟩
    · exact cleanup_retained now _ kc h
    · simp only [conv_add_message]
      norm_num

/-- Witness for C9: a concrete one-conversation map.  The cleanup at time
100000 evicts the conversation last active at time 0 (stale by more than 24
hours), and a fresh `get_response` call leaves only conversations active
within 24 hours. -/
theorem session_eviction_24h_witness :
    (([("a:b".data, (⟨"b".data, "a".data, [], 0, 0⟩ : ConversationContext))] :
      ConvMap).map Prod.fst).Nodup ∧
    cleanup_old_conversations 100000
        [("a:b".data, ⟨"b".data, "a".data, [], 0, 0⟩)]
      = ([("a:b".data, ⟨"b".data, "a".data, [], 0, 0⟩)] : ConvMap).filter
          (fun kc =>
            decide ((100000 : ℚ) - kc.2.last_activity ≤ 24 * 60 * 60)) ∧
    (("a:b".data,
        (⟨"b".data, "a".data, [⟨"user".data, "m".data, 5⟩,
          ⟨"assistant".data, "r".data, 5⟩], 5, 5⟩ : ConversationContext))
      ∈ get_response_conversations 5 "m".data "a".data "b".data "r".data []) ∧
    (5 : ℚ) - (5 : ℚ) ≤ 24 * 60 * 60 :=
  ⟨by simp, session_eviction_24h.1 100000 _ (by simp),
    by simp [get_response_conversations, updateKey, cleanup_old_conversations,
      conv_add_message],
    by norm_num⟩

end Chatbot
